import Mathlib

/-!
Shallow embedding of the HPGL-Laser-Engraver repository core:
the two HPGL parser implementations (`hpgl_parser.py` class `HPGLParser`
and `HpglFileProcessor.py` class `HPGLProcessor`), the circle expansion,
the scale transform, and the job-execution engine (`GUI/job_thread.py`
class `JobThread`, duplicated verbatim in `main.py`).

Python `int` values are modelled as `Int`.  Python float arithmetic is
modelled exactly: a finite double is the dyadic rational `m * 2 ^ e`
(`Dy`), and division and multiplication round the exact result to a
53-bit significand with round-to-nearest, ties to even, so expressions
such as `(i + 1) / total * 100` and `coord * scale_factor` evaluate to
precisely the values the program computes (for example
`int(29 / 50 * 100) = 57` and `int(100 * 0.29) = 28`).  The one float
expression that is exact for every input the format admits,
`(pen / 8) * 255` on small pens, is modelled by its exact rational value;
the transcendental circle-point computation
(`radius * math.cos(angle)`) is modelled over the reals.  `int(...)`
applied to any such value is truncation toward zero.
-/

/-- Command model: the dictionaries `{'type': 'HOME' | 'PU' | 'PD' | 'PA' | 'SP', ...}`
appended to `self.commands` by both parsers. -/
inductive Cmd where
  | home
  | penUp
  | penDown
  | moveTo (x y : Int)
  | setPower (power : Int)
deriving DecidableEq, Repr

/-- The four bound fields `min_x, min_y, max_x, max_y`.  They hold integers
while parsing and may hold non-integral rationals after `scale_commands`. -/
structure Box where
  min_x : ℚ
  min_y : ℚ
  max_x : ℚ
  max_y : ℚ
deriving DecidableEq, Repr

/-- Parser state: `self.commands` plus the bounds.  The Python code
initialises the bounds to `±inf` sentinels; the sentinel state (no point
seen yet) is modelled as `none`. -/
structure PState where
  commands : List Cmd
  bounds : Option Box
deriving DecidableEq, Repr

def PState.empty : PState := { commands := [], bounds := none }

/-- The method `update_bounds(x, y)`: running min/max over every emitted point
(identical in both parser classes). -/
def update_bounds (b : Option Box) (x y : Int) : Option Box :=
  match b with
  | none => some { min_x := x, min_y := y, max_x := x, max_y := y }
  | some bx => some { min_x := min bx.min_x x, min_y := min bx.min_y y,
                      max_x := max bx.max_x x, max_y := max bx.max_y y }

/-- The method `get_bounds()`: the sentinel (empty) state is reported as `(0,0,0,0)`. -/
def get_bounds (st : PState) : Box :=
  st.bounds.getD { min_x := 0, min_y := 0, max_x := 0, max_y := 0 }

/-- Python `str.split(sep)` for a single-character separator: `''` splits to
`[''']`-like singleton of empty, `"a;;b"` to `["a", "", "b"]`. -/
def splitOnChar (sep : Char) : List Char → List (List Char)
  | [] => [[]]
  | c :: rest =>
    if c = sep then [] :: splitOnChar sep rest
    else
      match splitOnChar sep rest with
      | [] => [[c]]
      | g :: gs => (c :: g) :: gs

/-- The whitespace stripping `content.replace(' ', '').replace('\n', '').replace('\r', '')`. -/
def stripWS (content : List Char) : List Char :=
  content.filter (fun c => !(c = ' ' || c = '\n' || c = '\r'))

/-- Splitting `content.split(';')` after whitespace stripping: the raw statement list. -/
def statements (content : List Char) : List (List Char) :=
  splitOnChar ';' (stripWS content)

/-- Value of a nonempty decimal digit string. -/
def digitsVal (l : List Char) : ℕ :=
  l.foldl (fun a c => 10 * a + (c.toNat - '0'.toNat)) 0

/-- Python `int(s)` on the numeral shapes occurring in HPGL payloads: an
optional sign followed by one or more decimal digits; any other string
raises `ValueError`, modelled as `none`. -/
def pyInt? (s : List Char) : Option Int :=
  match s with
  | '-' :: rest =>
    if !rest.isEmpty && rest.all Char.isDigit then some (-(digitsVal rest : Int)) else none
  | '+' :: rest =>
    if !rest.isEmpty && rest.all Char.isDigit then some (digitsVal rest : Int) else none
  | l =>
    if !l.isEmpty && l.all Char.isDigit then some (digitsVal l : Int) else none

/-- Rounding of `n / d` to the nearest integer with ties to even (`d > 0`),
the IEEE-754 round-to-nearest rule used by every Python float operation. -/
def rndNEdiv (n d : ℕ) : ℕ :=
  let q := n / d
  let r := n % d
  if 2 * r < d then q
  else if d < 2 * r then q + 1
  else if q % 2 = 0 then q else q + 1

/-- Fuel-driven floor of the base-2 logarithm (the fuel `n` always
suffices, and the kernel can evaluate it, unlike well-founded recursion). -/
def lg2F : ℕ → ℕ → ℕ
  | 0, _ => 0
  | fuel + 1, n => if n < 2 then 0 else lg2F fuel (n / 2) + 1

/-- Floor of the base-2 logarithm; `lg2 0 = 0`. -/
def lg2 (n : ℕ) : ℕ := lg2F n n

/-- Whether `a * 2 ^ s < c` for a signed shift `s`. -/
def shMulLt (a : ℕ) (s : ℤ) (c : ℕ) : Bool :=
  if 0 ≤ s then a * 2 ^ s.toNat < c else a < c * 2 ^ (-s).toNat

/-- The shift `s` that places `a * 2 ^ s / b` in the binade
`[2 ^ 52, 2 ^ 53)`, so that rounding the scaled quotient once yields the
53-bit significand of the IEEE double closest to `a / b`. -/
def flDivScale (a b : ℕ) : ℤ :=
  let s0 : ℤ := 52 + (lg2 b : ℤ) - (lg2 a : ℤ)
  let s1 : ℤ := if shMulLt a s0 (2 ^ 52 * b) then s0 + 1 else s0
  if shMulLt a s1 (2 ^ 53 * b) then s1 else s1 - 1

/-- Round `a * 2 ^ s / b` to the nearest integer (ties to even) for a
signed shift `s`. -/
def rndNEdivZ (a : ℕ) (s : ℤ) (b : ℕ) : ℕ :=
  if 0 ≤ s then rndNEdiv (a * 2 ^ s.toNat) b else rndNEdiv a (b * 2 ^ (-s).toNat)

/-- A dyadic rational `m * 2 ^ e`: the exact value of a finite IEEE-754
double.  The binary operations below model Python float arithmetic
exactly on the normal (non-overflowing, non-subnormal) range, which every
quantity in this program inhabits. -/
structure Dy where
  m : Int
  e : Int
deriving DecidableEq, Repr

/-- The IEEE double nearest to the rational `a / b` (round to nearest,
ties to even): the result of Python's true division `a / b` on
nonnegative integers, and of converting the exact rational to a float. -/
def flDivN (a b : ℕ) : Dy :=
  if a = 0 ∨ b = 0 then ⟨0, 0⟩
  else ⟨(rndNEdivZ a (flDivScale a b) b : Int), -(flDivScale a b)⟩

/-- Round the exact product value `m * 2 ^ e` back to a 53-bit
significand: the rounding step of an IEEE multiplication. -/
def round53 (m : Int) (e : Int) : Dy :=
  if m.natAbs < 2 ^ 53 then ⟨m, e⟩
  else
    let k := lg2 m.natAbs - 52
    let m1 := rndNEdiv m.natAbs (2 ^ k)
    ⟨if m < 0 then -(m1 : Int) else (m1 : Int), e + k⟩

/-- IEEE product of a double and an integer (`x * 100`,
`coord * scale_factor` with the integer operand exactly representable):
the exact product rounded once. -/
def flMulZ (d : Dy) (c : Int) : Dy := round53 (d.m * c) d.e

/-- IEEE product of two doubles: the exact product rounded once. -/
def flMulD (a b : Dy) : Dy := round53 (a.m * b.m) (a.e + b.e)

/-- The IEEE double nearest to an exact rational: Python's conversion of
an `int` (or of a value already stored as a float, which it reproduces
exactly) ahead of a float operation. -/
def flRat (q : ℚ) : Dy :=
  if q < 0 then ⟨-((flDivN q.num.natAbs q.den).m), (flDivN q.num.natAbs q.den).e⟩
  else flDivN q.num.natAbs q.den

/-- The exact rational value of a dyadic. -/
def dyVal (d : Dy) : ℚ :=
  if 0 ≤ d.e then ((d.m * 2 ^ d.e.toNat : Int) : ℚ)
  else (d.m : ℚ) / ((2 ^ (-d.e).toNat : ℕ) : ℚ)

/-- Python `int()` applied to a float value: truncation toward zero. -/
def dyTrunc (d : Dy) : Int :=
  if 0 ≤ d.e then d.m * 2 ^ d.e.toNat else (d.m).tdiv (2 ^ (-d.e).toNat)

/-- The `SP` rescale `min(255, int((pen / 8) * 255))`, identical in both
parser classes.  `(pen / 8) * 255` is the exact rational `pen * 255 / 8`
(the float computation is exact for every pen magnitude the format admits),
and `int()` truncates toward zero, which is integer t-division. -/
def spPower (pen : Int) : Int :=
  min 255 (Int.tdiv (pen * 255) 8)

/-- One statement of `HPGLParser.parse_file` (`hpgl_parser.py`).  `Except`
models an exception escaping the statement: the carried state is the
partially mutated `self` at the moment of the raise. -/
def parserStep (st : PState) (s : List Char) : Except PState PState :=
  if s.isEmpty then .ok st
  else
    let t := s.take 2
    if t = ['I', 'N'] then .ok { st with commands := st.commands ++ [.home] }
    else if t = ['P', 'U'] ∨ t = ['P', 'D'] then
      let pen : Cmd := if t = ['P', 'U'] then .penUp else .penDown
      let st1 : PState := { st with commands := st.commands ++ [pen] }
      if s.length > 2 then
        match splitOnChar ',' (s.drop 2) with
        | c0 :: c1 :: _ =>
          match pyInt? c0, pyInt? c1 with
          | some x, some y =>
            .ok { st1 with commands := st1.commands ++ [.moveTo x y],
                           bounds := update_bounds st1.bounds x y }
          | _, _ => .error st1
        | _ => .ok st1
      else .ok st1
    else if t = ['P', 'A'] then
      match splitOnChar ',' (s.drop 2) with
      | c0 :: c1 :: _ =>
        match pyInt? c0, pyInt? c1 with
        | some x, some y =>
          .ok { st with commands := st.commands ++ [.moveTo x y],
                        bounds := update_bounds st.bounds x y }
        | _, _ => .error st
      | _ => .ok st
    else if t = ['S', 'P'] then
      if s.length > 2 then
        match pyInt? (s.drop 2) with
        | some pen => .ok { st with commands := st.commands ++ [.setPower (spPower pen)] }
        | none => .error st
      else .ok st
    else .ok st

/-- The statement loop shared by both `parse_file` methods: `true` means the
`try` body completed and the method returns `True`; `false` means an
exception was caught (method returns `False`), with the state as mutated up
to the raise. -/
def runStmts (step : PState → List Char → Except PState PState) :
    PState → List (List Char) → Bool × PState
  | st, [] => (true, st)
  | st, s :: rest =>
    match step st s with
    | .ok st1 => runStmts step st1 rest
    | .error st1 => (false, st1)

/-- Method `HPGLParser.parse_file` (`hpgl_parser.py`): calls `self.reset()` first,
so the previously held state `prev` is discarded unconditionally. -/
def HPGLParser.parse_file (prev : PState) (content : List Char) : Bool × PState :=
  runStmts parserStep PState.empty (statements content)

/-- Truncation of `int()` applied to a real-valued float expression
(`int(radius * math.cos(angle))`): toward zero. -/
noncomputable def truncR (x : ℝ) : Int :=
  if 0 ≤ x then ⌊x⌋ else ⌈x⌉

/-- The point computed in the body of the circle loop:
`(center_x + int(radius*cos(angle)), center_y + int(radius*sin(angle)))`
with `angle = 2 * math.pi * i / segments`. -/
noncomputable def circlePoint (cx cy radius : Int) (segments i : ℕ) : Int × Int :=
  let angle : ℝ := 2 * Real.pi * i / segments
  (cx + truncR (radius * Real.cos angle), cy + truncR (radius * Real.sin angle))

/-- Method `HPGLProcessor.convert_circle_to_lines(radius, segments)`: if the last
emitted command is a `MoveTo`, it is popped and serves as the center; then
`PenUp`, the angle-0 point `(cx + radius, cy)`, `PenDown`, the points for
`i = 1..segments`, and a trailing `PenUp` are appended, every point
updating the bounds.  Otherwise nothing happens. -/
noncomputable def convert_circle_to_lines (st : PState) (radius : Int) (segments : ℕ) : PState :=
  match st.commands.getLast? with
  | some (.moveTo cx cy) =>
    let pts := (List.range segments).map (fun k => circlePoint cx cy radius segments (k + 1))
    { commands := st.commands.dropLast ++ [.penUp, .moveTo (cx + radius) cy, .penDown]
        ++ pts.map (fun p => .moveTo p.1 p.2) ++ [.penUp],
      bounds := pts.foldl (fun b p => update_bounds b p.1 p.2)
        (update_bounds st.bounds (cx + radius) cy) }
  | _ => st

/-- Left-to-right `list(map(int, strs))`, raising (`none`) at the first
entry `int` rejects. -/
def intsOf : List (List Char) → Option (List Int)
  | [] => some []
  | c :: rest =>
    match pyInt? c with
    | none => none
    | some v =>
      match intsOf rest with
      | none => none
      | some vs => some (v :: vs)

/-- The pair-consuming loop `for i in range(0, len(nums) - 1, 2)`:
consecutive pairs, a trailing odd element ignored. -/
def pairsOf : List Int → List (Int × Int)
  | x :: y :: rest => (x, y) :: pairsOf rest
  | _ => []

/-- Append one `MoveTo` per pair, updating bounds for each. -/
def emitPairs (st : PState) (ps : List (Int × Int)) : PState :=
  ps.foldl
    (fun s p =>
      { s with commands := s.commands ++ [.moveTo p.1 p.2],
               bounds := update_bounds s.bounds p.1 p.2 })
    st

/-- One statement of `HPGLProcessor.parse_file` (`HpglFileProcessor.py`).
Differences from `parserStep`: `PU`/`PD`/`PA` consume every coordinate pair
(`PA` first dropping empty entries), and `CI` triggers circle expansion. -/
noncomputable def processorStep (st : PState) (s : List Char) : Except PState PState :=
  if s.isEmpty then .ok st
  else
    let t := s.take 2
    if t = ['I', 'N'] then .ok { st with commands := st.commands ++ [.home] }
    else if t = ['P', 'U'] ∨ t = ['P', 'D'] then
      let pen : Cmd := if t = ['P', 'U'] then .penUp else .penDown
      let st1 : PState := { st with commands := st.commands ++ [pen] }
      if s.length > 2 then
        match intsOf (splitOnChar ',' (s.drop 2)) with
        | none => .error st1
        | some nums => .ok (emitPairs st1 (pairsOf nums))
      else .ok st1
    else if t = ['P', 'A'] then
      match intsOf ((splitOnChar ',' (s.drop 2)).filter (fun n => !n.isEmpty)) with
      | none => .error st
      | some nums => .ok (emitPairs st (pairsOf nums))
    else if t = ['S', 'P'] then
      if s.length > 2 then
        match pyInt? (s.drop 2) with
        | some pen => .ok { st with commands := st.commands ++ [.setPower (spPower pen)] }
        | none => .error st
      else .ok st
    else if t = ['C', 'I'] then
      match pyInt? (s.drop 2) with
      | some radius => .ok (convert_circle_to_lines st radius 36)
      | none => .error st
    else .ok st

/-- Method `HPGLProcessor.parse_file` (`HpglFileProcessor.py`): unlike
`HPGLParser.parse_file` there is no reset, so parsing continues from the
held state. -/
noncomputable def HPGLProcessor.parse_file (st : PState) (content : List Char) : Bool × PState :=
  runStmts processorStep st (statements content)

/-- Method `HPGLProcessor.scale_commands(scale_factor)`: `scale_factor` is
a Python float, modelled by its exact dyadic value.  Every `MoveTo`
coordinate becomes `int(coord * scale_factor)`: one IEEE multiplication of
the (exactly representable) integer coordinate by the factor, then
truncation toward zero.  Other commands pass through.  Each bound field —
an integer from parsing, or a float from an earlier transform, converted
to a double by `flRat` — is multiplied by the factor with one IEEE
rounding and stored as the resulting float value (no truncation; the
`±inf` sentinel state stays the sentinel). -/
def scale_commands (st : PState) (factor : Dy) : PState :=
  { commands := st.commands.map (fun c =>
      match c with
      | .moveTo x y => .moveTo (dyTrunc (flMulZ factor x)) (dyTrunc (flMulZ factor y))
      | c => c),
    bounds := st.bounds.map (fun b =>
      { min_x := dyVal (flMulD (flRat b.min_x) factor),
        min_y := dyVal (flMulD (flRat b.min_y) factor),
        max_x := dyVal (flMulD (flRat b.max_x) factor),
        max_y := dyVal (flMulD (flRat b.max_y) factor) }) }

/-- Events observably emitted by `JobThread.run`: wire lines handed to
`ArduinoController.send_command`, `status_update` texts, `progress_update`
percentages, and the terminal `job_finished` signal. -/
inductive Ev where
  | sent (line : String)
  | status (msg : String)
  | progress (pct : Int)
  | finished
deriving DecidableEq, Repr

/-- Wire form sent for each command in the dispatch chain of
`JobThread.run`. -/
def wire : Cmd → String
  | .home => "HOME:"
  | .penUp => "PU:"
  | .penDown => "PD:"
  | .moveTo x y => "PA:" ++ toString x ++ "," ++ toString y
  | .setPower p => "SP:" ++ toString p

/-- The `status_update` text emitted right after each send. -/
def statusOf : Cmd → String
  | .home => "Homing machine..."
  | .penUp => "Laser OFF"
  | .penDown => "Laser ON"
  | .moveTo x y => "Moving to (" ++ toString x ++ ", " ++ toString y ++ ")"
  | .setPower p => "Setting laser power to " ++ toString p

/-- One environment schedule for a run of `JobThread.run`: the device reply
(or timeout) for each command index, whether `send_command` or
`wait_for_response` raises at that index, whether the final shutdown send
raises, and the iteration index at whose loop check a `stop()` from the
controller is first observed (`is_running == False`).  `pause()` is never
signalled in the schedules modelled here (`is_paused` stays `False`, so the
pause loop body never runs). -/
structure Sched where
  reply : ℕ → Option String
  sendFail : ℕ → Bool
  waitFail : ℕ → Bool
  shutdownFail : Bool
  stopAt : Option ℕ
  failMsg : String

/-- Whether the check `if not self.is_running: break` fires at iteration `i`. -/
def stopQ (sc : Sched) (i : ℕ) : Bool :=
  match sc.stopAt with
  | none => false
  | some k => decide (k ≤ i)

/-- The value `int((i + 1) / total_commands * 100)` emitted after the round
trip of command `i` (0-based), computed as Python does: the true division
`(i + 1) / total` rounds to the nearest double, the product with the exact
integer 100 rounds once more, and `int()` truncates toward zero.  (For
example a 50-command job emits 57, not 58, after its 29th command.) -/
def progressAt (i total : ℕ) : Int :=
  dyTrunc (flMulZ (flDivN (i + 1) total) 100)

/-- The status event emitted for an `ERR`-prefixed reply
(`if response and response.startswith("ERR")`); a timeout (`None`) or any
other reply produces nothing. -/
def errEvsOf (rep : Option String) : List Ev :=
  match rep with
  | some r => if r.startsWith "ERR" then [Ev.status ("Error: " ++ r)] else []
  | none => []

/-- The `for i, cmd in enumerate(self.commands)` loop of `JobThread.run`,
from iteration `i`.  Returns the events emitted inside the loop and whether
an exception escaped it. -/
def jobLoop (sc : Sched) (total : ℕ) : List Cmd → ℕ → List Ev × Bool
  | [], _ => ([], false)
  | c :: rest, i =>
    if stopQ sc i then ([], false)
    else if sc.sendFail i then ([], true)
    else if sc.waitFail i then ([Ev.sent (wire c), Ev.status (statusOf c)], true)
    else
      let tl := jobLoop sc total rest (i + 1)
      (Ev.sent (wire c) :: Ev.status (statusOf c) :: errEvsOf (sc.reply i)
        ++ [Ev.progress (progressAt i total)] ++ tl.1, tl.2)

/-- Method `JobThread.run` (identical in `GUI/job_thread.py` and `main.py`): the
command loop inside `try`; on normal loop exit (completion or `break`) the
shutdown `PU:` and the completion status are emitted still inside `try`; a
caught exception emits the error status instead; the `finally` block always
emits `job_finished`. -/
def JobThread.run (cmds : List Cmd) (sc : Sched) : List Ev :=
  let r := jobLoop sc cmds.length cmds 0
  if r.2 then r.1 ++ [.status ("Error: " ++ sc.failMsg), .finished]
  else if sc.shutdownFail then r.1 ++ [.status ("Error: " ++ sc.failMsg), .finished]
  else r.1 ++ [.sent "PU:", .status "Job completed", .finished]

/-- The wire lines handed to the session, in order. -/
def sentLines (evs : List Ev) : List String :=
  evs.filterMap fun e => match e with | .sent l => some l | _ => none

/-- The progress percentages emitted, in order. -/
def progressVals (evs : List Ev) : List Int :=
  evs.filterMap fun e => match e with | .progress p => some p | _ => none

/-- Decidable statement-level side condition for the amended C9: if the
statement is an `SP` whose payload parses, the pen argument is
nonnegative. -/
def spOK (s : List Char) : Bool :=
  if s.take 2 = ['S', 'P'] then
    match pyInt? (s.drop 2) with
    | some pen => decide (0 ≤ pen)
    | none => true
  else true

/-- The state in which a statement leaves the parser, whether or not it
raised. -/
def exceptState (r : Except PState PState) : PState :=
  match r with
  | .ok st => st
  | .error st => st

/-- The flat parameter list `x1,y1,x2,y2,...` of a pair list. -/
def flatPairs : List (Int × Int) → List Int
  | [] => []
  | p :: rest => p.1 :: p.2 :: flatPairs rest

/-- Statements on which the two parser implementations cannot diverge:
no `CI` (only the processor expands circles), and `PU`/`PD`/`PA`
parameter lists restricted to at most one coordinate pair (the
`hpgl_parser.py` copy ignores every pair after the first), with the
single-entry and empty-entry forms excluded where exactly one of the two
copies would raise. -/
def simpleStmt (s : List Char) : Bool :=
  let t := s.take 2
  if t = ['C', 'I'] then false
  else if t = ['P', 'U'] ∨ t = ['P', 'D'] then
    if s.drop 2 = [] then true
    else
      match splitOnChar ',' (s.drop 2) with
      | [c] => (pyInt? c).isSome
      | [_, _] => true
      | _ => false
  else if t = ['P', 'A'] then
    match splitOnChar ',' (s.drop 2) with
    | [c] => c.isEmpty || (pyInt? c).isSome
    | [c0, c1] => !c0.isEmpty && !c1.isEmpty
    | _ => false
  else true

/-- C1.  When `send_command` raises on the very first command of a
one-command job, the run emits only the error status and the terminal
`job_finished`: no line is ever handed to the session, so the mandatory
shutdown pen-up is not attempted, contradicting the claim that every exit
path sends it.  (The shutdown `PU:` sits inside the `try` block and is
skipped when control jumps to `except`.) -/
theorem C1_shutdown_skipped_on_exception :
    JobThread.run [Cmd.penUp]
        ⟨fun _ => none, fun _ => true, fun _ => false, false, none,
          "Not connected to Arduino"⟩
      = [.status "Error: Not connected to Arduino", .finished]
    ∧ sentLines
        (JobThread.run [Cmd.penUp]
          ⟨fun _ => none, fun _ => true, fun _ => false, false, none,
            "Not connected to Arduino"⟩)
      = [] := by
  decide

/-- C3 counterexample.  After a successful parse of `"PA1,2;"`, parsing the
malformed `"PA3,4;PAx,y;"` returns the failure flag but does NOT leave the
previously held result untouched: `reset()` ran first, and the commands
parsed before the failing statement are committed, so the held state is
`[MoveTo 3 4]`, not `[MoveTo 1 2]`. -/
theorem C3_counterexample :
    (HPGLParser.parse_file (HPGLParser.parse_file PState.empty "PA1,2;".toList).2
        "PA3,4;PAx,y;".toList).1 = false
    ∧ (HPGLParser.parse_file PState.empty "PA1,2;".toList).2.commands = [.moveTo 1 2]
    ∧ (HPGLParser.parse_file (HPGLParser.parse_file PState.empty "PA1,2;".toList).2
        "PA3,4;PAx,y;".toList).2.commands = [.moveTo 3 4] := by
  decide

/-- C3 amended.  A failed parse does return an explicit failure flag, but
the previously held result is unconditionally discarded by the initial
`reset()` (the outcome never depends on it), and the state left behind is
the partial result of the current parse up to the failing statement. -/
theorem C3_amended :
    (∀ prev content, HPGLParser.parse_file prev content
        = HPGLParser.parse_file PState.empty content)
    ∧ HPGLParser.parse_file PState.empty "PA3,4;PAx,y;".toList
      = (false, { commands := [.moveTo 3 4],
                  bounds := some { min_x := 3, min_y := 4, max_x := 3, max_y := 4 } }) := by
  exact ⟨fun _ _ => rfl, by decide⟩

/-- C4 counterexample.  On the spec's own example input the parser emits
`SetPower 127`: the code computes `min(255, int(4 / 8 * 255))` and `int()`
truncates `127.5` to `127`, while the claim's formula
`min(255, round(4/8*255))` gives `128`. -/
theorem C4_counterexample :
    (HPGLParser.parse_file PState.empty
        "IN;PU;PA100,200;PD;PA150,250;SP4;".toList).2.commands
      = [.home, .penUp, .moveTo 100 200, .penDown, .moveTo 150 250, .setPower 127]
    ∧ min 255 (round ((4 : ℚ) / 8 * 255)) = 128 := by
  refine ⟨by decide, ?_⟩
  norm_num [round_eq]

/-- C9 counterexample.  `SP-1;` is accepted (`int("-1")` succeeds) and
emits `SetPower (-31)`: `min(255, int((-1 / 8) * 255)) = -31`, outside the
data-model range `[0, 255]`. -/
theorem C9_counterexample :
    (HPGLParser.parse_file PState.empty "SP-1;".toList).2.commands = [.setPower (-31)]
    ∧ ¬ (0 ≤ (-31 : Int)) := by
  decide

/-- C5 counterexample.  On the two-pair statement `PA0,0,5,5;` the
`hpgl_parser.py` parser emits only the first pair's `MoveTo`, not one per
pair (the `HpglFileProcessor.py` copy does emit both). -/
theorem C5_counterexample :
    (HPGLParser.parse_file PState.empty "PA0,0,5,5;".toList).2.commands = [.moveTo 0 0]
    ∧ (HPGLParser.parse_file PState.empty "PA0,0,5,5;".toList).2.commands
        ≠ [.moveTo 0 0, .moveTo 5 5] := by
  decide

/-- C10 counterexample.  The two parser implementations are not
behaviorally equivalent: on `PA0,0,5,5;` `HPGLParser` emits one `MoveTo`
and bounds over one point, `HPGLProcessor` two `MoveTo`s and bounds over
both. -/
theorem C10_counterexample :
    HPGLParser.parse_file PState.empty "PA0,0,5,5;".toList
      ≠ HPGLProcessor.parse_file PState.empty "PA0,0,5,5;".toList := by
  decide

/-- C7 counterexample.  For a three-command job the progress event after
the second command's round trip is `int(2/3*100) = 66`, while the claim's
formula `round((2/3)*100)` gives `67`. -/
theorem C7_counterexample :
    progressVals (JobThread.run (List.replicate 3 .penDown)
        ⟨fun _ => some "OK", fun _ => false, fun _ => false, false, none, ""⟩)
      = [33, 66, 100]
    ∧ round ((2 : ℚ) / 3 * 100) = 67 := by
  refine ⟨by decide, ?_⟩
  norm_num [round_eq]

/-- C8 counterexample.  `scale_commands` computes `int(coord * factor)`,
truncation toward zero: scaling `MoveTo 3 0` by the float `0.5` (the
dyadic `1 * 2 ^ (-1)`, exact in binary) yields `MoveTo 1 0` since
`3 * 0.5 = 1.5` truncates to 1, while the claim's round-to-integer gives
`round(1.5) = 2`. -/
theorem C8_counterexample :
    (scale_commands
        { commands := [.moveTo 3 0],
          bounds := some { min_x := 0, min_y := 0, max_x := 3, max_y := 0 } }
        ⟨1, -1⟩).commands
      = [.moveTo 1 0]
    ∧ round ((3 : ℚ) * (1 / 2)) = 2 := by
  refine ⟨by decide, ?_⟩
  norm_num [round_eq]

/-- Helper: a payload `int` accepts is nonempty. -/
theorem pyInt?_ne_nil {ds : List Char} {v : Int} (h : pyInt? ds = some v) : ds ≠ [] := by
  rintro rfl
  simp [pyInt?] at h

/-- C4 amended.  For every statement `SP n` the parser emits exactly one
`SetPower` whose value is `min(255, trunc(n * 255 / 8))` (truncation toward
zero, the Python `int()`); on the spec's example input the emitted power is
therefore `127`, with bounds `(100, 200, 150, 250)`. -/
theorem C4_amended (st : PState) (ds : List Char) (pen : Int)
    (h : pyInt? ds = some pen) :
    parserStep st ('S' :: 'P' :: ds)
      = .ok { st with commands := st.commands ++ [.setPower (min 255 (Int.tdiv (pen * 255) 8))] }
    ∧ HPGLParser.parse_file PState.empty "IN;PU;PA100,200;PD;PA150,250;SP4;".toList
      = (true,
         { commands := [.home, .penUp, .moveTo 100 200, .penDown, .moveTo 150 250,
                        .setPower 127],
           bounds := some { min_x := 100, min_y := 200, max_x := 150, max_y := 250 } }) := by
  refine ⟨?_, by decide⟩
  have hds : ds ≠ [] := pyInt?_ne_nil h
  have hlen : ('S' :: 'P' :: ds).length > 2 := by
    have := List.length_pos.mpr hds
    simp only [List.length_cons]
    omega
  have h1 : ¬ ((['S', 'P'] : List Char) = ['I', 'N']) := by decide
  have h2 : ¬ ((['S', 'P'] : List Char) = ['P', 'U'] ∨ (['S', 'P'] : List Char) = ['P', 'D']) := by
    decide
  have h3 : ¬ ((['S', 'P'] : List Char) = ['P', 'A']) := by decide
  simp only [parserStep, List.isEmpty_cons, Bool.false_eq_true, if_false,
    List.take_succ_cons, List.take_zero, h1, h2, h3, if_true, if_false,
    List.drop_succ_cons, List.drop_zero, hlen, h, spPower]

theorem sentLines_cons_sent (l : String) (evs : List Ev) :
    sentLines (Ev.sent l :: evs) = l :: sentLines evs := rfl

theorem sentLines_cons_status (m : String) (evs : List Ev) :
    sentLines (Ev.status m :: evs) = sentLines evs := rfl

theorem sentLines_cons_progress (p : Int) (evs : List Ev) :
    sentLines (Ev.progress p :: evs) = sentLines evs := rfl

theorem sentLines_cons_finished (evs : List Ev) :
    sentLines (Ev.finished :: evs) = sentLines evs := rfl

theorem progressVals_cons_sent (l : String) (evs : List Ev) :
    progressVals (Ev.sent l :: evs) = progressVals evs := rfl

theorem progressVals_cons_status (m : String) (evs : List Ev) :
    progressVals (Ev.status m :: evs) = progressVals evs := rfl

theorem progressVals_cons_progress (p : Int) (evs : List Ev) :
    progressVals (Ev.progress p :: evs) = p :: progressVals evs := rfl

theorem progressVals_cons_finished (evs : List Ev) :
    progressVals (Ev.finished :: evs) = progressVals evs := rfl

theorem sentLines_errEvsOf (rep : Option String) : sentLines (errEvsOf rep) = [] := by
  rcases rep with _ | r
  · rfl
  · by_cases h : r.startsWith "ERR" <;> simp [errEvsOf, h, sentLines_cons_status] <;> rfl

theorem progressVals_errEvsOf (rep : Option String) : progressVals (errEvsOf rep) = [] := by
  rcases rep with _ | r
  · rfl
  · by_cases h : r.startsWith "ERR" <;> simp [errEvsOf, h, progressVals_cons_status] <;> rfl

theorem sentLines_append (a b : List Ev) : sentLines (a ++ b) = sentLines a ++ sentLines b :=
  List.filterMap_append ..

theorem progressVals_append (a b : List Ev) :
    progressVals (a ++ b) = progressVals a ++ progressVals b :=
  List.filterMap_append ..

/-- Loop behavior with no stop signal and no transport failure: every
command is sent in order and one progress event follows each round trip. -/
theorem jobLoop_no_stop (reply : ℕ → Option String) (msg : String) (total : ℕ)
    (l : List Cmd) :
    ∀ j : ℕ,
      (jobLoop ⟨reply, fun _ => false, fun _ => false, false, none, msg⟩ total l j).2 = false
      ∧ sentLines
          (jobLoop ⟨reply, fun _ => false, fun _ => false, false, none, msg⟩ total l j).1
        = l.map wire
      ∧ progressVals
          (jobLoop ⟨reply, fun _ => false, fun _ => false, false, none, msg⟩ total l j).1
        = (List.range' j l.length).map (fun i => progressAt i total) := by
  induction l with
  | nil => exact fun j => ⟨rfl, rfl, rfl⟩
  | cons c rest ih =>
    intro j
    obtain ⟨ih1, ih2, ih3⟩ := ih (j + 1)
    have hstep :
        jobLoop ⟨reply, fun _ => false, fun _ => false, false, none, msg⟩ total (c :: rest) j
          = (Ev.sent (wire c) :: Ev.status (statusOf c) :: errEvsOf (reply j)
              ++ [Ev.progress (progressAt j total)]
              ++ (jobLoop ⟨reply, fun _ => false, fun _ => false, false, none, msg⟩ total
                    rest (j + 1)).1,
             (jobLoop ⟨reply, fun _ => false, fun _ => false, false, none, msg⟩ total
                rest (j + 1)).2) := by
      simp [jobLoop, stopQ]
    refine ⟨?_, ?_, ?_⟩
    · rw [hstep]
      exact ih1
    · rw [hstep]
      simp only [sentLines_cons_sent, sentLines_cons_status, sentLines_append,
        sentLines_errEvsOf, ih2, List.map_cons, List.nil_append]
      rfl
    · rw [hstep]
      simp only [progressVals_cons_sent, progressVals_cons_status, progressVals_append,
        progressVals_errEvsOf, ih3, List.range'_succ, List.map_cons, List.nil_append]
      rfl

/-- Loop behavior when `stop()` is first observed at the check of iteration
`k`: exactly the first `k` commands are dispatched (each with its round
trip and progress event), then the loop breaks without raising. -/
theorem jobLoop_stop (reply : ℕ → Option String) (msg : String) (total k : ℕ)
    (l : List Cmd) :
    ∀ j : ℕ, j ≤ k →
      (jobLoop ⟨reply, fun _ => false, fun _ => false, false, some k, msg⟩ total l j).2 = false
      ∧ sentLines
          (jobLoop ⟨reply, fun _ => false, fun _ => false, false, some k, msg⟩ total l j).1
        = (l.take (k - j)).map wire
      ∧ progressVals
          (jobLoop ⟨reply, fun _ => false, fun _ => false, false, some k, msg⟩ total l j).1
        = (List.range' j (min (k - j) l.length)).map (fun i => progressAt i total) := by
  induction l with
  | nil =>
    refine fun j _ => ⟨rfl, ?_, ?_⟩
    · show ([] : List String) = _
      simp
    · show ([] : List Int) = _
      simp
  | cons c rest ih =>
    intro j hj
    rcases eq_or_lt_of_le hj with rfl | hjk
    · have hstop :
          jobLoop ⟨reply, fun _ => false, fun _ => false, false, some j, msg⟩ total
              (c :: rest) j = ([], false) := by
        simp [jobLoop, stopQ]
      rw [hstop]
      simp [sentLines, progressVals]
    · obtain ⟨ih1, ih2, ih3⟩ := ih (j + 1) hjk
      have hstep :
          jobLoop ⟨reply, fun _ => false, fun _ => false, false, some k, msg⟩ total
              (c :: rest) j
            = (Ev.sent (wire c) :: Ev.status (statusOf c) :: errEvsOf (reply j)
                ++ [Ev.progress (progressAt j total)]
                ++ (jobLoop ⟨reply, fun _ => false, fun _ => false, false, some k, msg⟩ total
                      rest (j + 1)).1,
               (jobLoop ⟨reply, fun _ => false, fun _ => false, false, some k, msg⟩ total
                  rest (j + 1)).2) := by
        simp [jobLoop, stopQ, Nat.not_le.mpr hjk]
      have hk1 : k - j = (k - (j + 1)) + 1 := by omega
      refine ⟨by rw [hstep]; exact ih1, ?_, ?_⟩
      · rw [hstep]
        simp only [sentLines_cons_sent, sentLines_cons_status, sentLines_append,
          sentLines_errEvsOf, ih2, List.nil_append]
        rw [hk1]
        rfl
      · rw [hstep]
        simp only [progressVals_cons_sent, progressVals_cons_status, progressVals_append,
          progressVals_errEvsOf, ih3, List.nil_append]
        rw [hk1]
        have hmin : min ((k - (j + 1)) + 1) (rest.length + 1)
            = (min (k - (j + 1)) rest.length) + 1 := by omega
        show progressAt j total :: _
            = (List.range' j (min ((k - (j + 1)) + 1) ((c :: rest).length))).map _
        rw [List.length_cons, hmin, List.range'_succ, List.map_cons]
        simp [progressVals]

/-- C2.  When `stop()` is observed at the check before iteration `k`, the
commands dispatched are exactly the first `k` of the input (in order), each
dispatched command's round trip is awaited (witnessed by its progress
event, emitted only after `wait_for_response` returns), the only
subsequent send is the unconditional shutdown `PU:`, and the run still ends
with the terminal `job_finished` event. -/
theorem C2_stop_semantics (cmds : List Cmd) (reply : ℕ → Option String) (msg : String)
    (k : ℕ) (hk : k ≤ cmds.length) :
    sentLines (JobThread.run cmds ⟨reply, fun _ => false, fun _ => false, false, some k, msg⟩)
      = (cmds.take k).map wire ++ ["PU:"]
    ∧ progressVals
        (JobThread.run cmds ⟨reply, fun _ => false, fun _ => false, false, some k, msg⟩)
      = (List.range k).map (fun i => progressAt i cmds.length)
    ∧ (JobThread.run cmds ⟨reply, fun _ => false, fun _ => false, false, some k, msg⟩).getLast?
      = some .finished := by
  obtain ⟨h1, h2, h3⟩ := jobLoop_stop reply msg cmds.length k cmds 0 (Nat.zero_le k)
  have hrun :
      JobThread.run cmds ⟨reply, fun _ => false, fun _ => false, false, some k, msg⟩
        = (jobLoop ⟨reply, fun _ => false, fun _ => false, false, some k, msg⟩
            cmds.length cmds 0).1
          ++ [.sent "PU:", .status "Job completed", .finished] := by
    simp [JobThread.run, h1]
  rw [hrun]
  refine ⟨?_, ?_, ?_⟩
  · rw [sentLines_append, h2, Nat.sub_zero]
    rfl
  · rw [progressVals_append, h3, Nat.sub_zero, min_eq_left hk, ← List.range_eq_range']
    simp [progressVals]
  · rw [show ([Ev.sent "PU:", Ev.status "Job completed", Ev.finished])
        = [Ev.sent "PU:", Ev.status "Job completed"] ++ [Ev.finished] from rfl,
      ← List.append_assoc]
    exact List.getLast?_concat _

/-- C2 witness: a five-command job stopped at the check before command 4
(index 3) sends exactly commands 0–2 and the shutdown `PU:`, emits three
progress events, and ends in the terminal event. -/
theorem C2_stop_semantics_witness :
    sentLines (JobThread.run [Cmd.home, .moveTo 1 2, .penDown, .moveTo 3 4, .moveTo 5 6]
        ⟨fun _ => some "OK", fun _ => false, fun _ => false, false, some 3, "m"⟩)
      = ["HOME:", "PA:1,2", "PD:", "PU:"]
    ∧ progressVals (JobThread.run [Cmd.home, .moveTo 1 2, .penDown, .moveTo 3 4, .moveTo 5 6]
        ⟨fun _ => some "OK", fun _ => false, fun _ => false, false, some 3, "m"⟩)
      = [20, 40, 60]
    ∧ (JobThread.run [Cmd.home, .moveTo 1 2, .penDown, .moveTo 3 4, .moveTo 5 6]
        ⟨fun _ => some "OK", fun _ => false, fun _ => false, false, some 3, "m"⟩).getLast?
      = some .finished :=
  C2_stop_semantics [Cmd.home, .moveTo 1 2, .penDown, .moveTo 3 4, .moveTo 5 6]
    (fun _ => some "OK") "m" 3 (by decide)

/-- The IEEE quotient of a nonzero natural by itself is exactly 1
(significand `2 ^ 52`, exponent `-52`): the scaled quotient sits exactly
on the binade boundary and rounds without error. -/
theorem flDivN_self (n : ℕ) (hn : n ≠ 0) : flDivN n n = ⟨2 ^ 52, -52⟩ := by
  have hpos : 0 < n := Nat.pos_of_ne_zero hn
  have htn : (52 : ℤ).toNat = 52 := rfl
  have hcond1 : shMulLt n 52 (2 ^ 52 * n) = false := by
    unfold shMulLt
    rw [if_pos (by norm_num : (0 : ℤ) ≤ 52)]
    refine decide_eq_false ?_
    rw [htn, Nat.mul_comm]
    exact lt_irrefl _
  have hcond2 : shMulLt n 52 (2 ^ 53 * n) = true := by
    unfold shMulLt
    rw [if_pos (by norm_num : (0 : ℤ) ≤ 52)]
    refine decide_eq_true ?_
    rw [htn]
    calc n * 2 ^ 52 < n * 2 ^ 53 := by
          exact mul_lt_mul_of_pos_left (by norm_num) hpos
      _ = 2 ^ 53 * n := Nat.mul_comm ..
  have hs0 : (52 : ℤ) + (lg2 n : ℤ) - (lg2 n : ℤ) = 52 := by ring
  have hscale : flDivScale n n = 52 := by
    simp only [flDivScale, hs0, hcond1, hcond2, Bool.false_eq_true, if_false, if_true]
  have hne : ¬ (n = 0 ∨ n = 0) := by simp [hn]
  have hq : n * 2 ^ 52 / n = 2 ^ 52 := Nat.mul_div_cancel_left _ hpos
  have hr : n * 2 ^ 52 % n = 0 := Nat.mul_mod_right n _
  simp only [flDivN, hne, if_false, hscale, rndNEdivZ,
    if_pos (by norm_num : (0 : ℤ) ≤ 52), htn, rndNEdiv, hq, hr]
  rw [if_pos (by omega : 2 * 0 < n)]
  norm_num

/-- The last progress event is exactly 100: `total / total` divides
without error to the double 1.0, and `1.0 * 100` truncates to 100. -/
theorem progressAt_last (n : ℕ) (hn : n ≠ 0) : progressAt (n - 1) n = 100 := by
  unfold progressAt
  rw [Nat.sub_add_cancel (Nat.one_le_iff_ne_zero.mpr hn), flDivN_self n hn]
  decide

/-- C7 amended.  With every round trip completing (no stop, no failure),
the progress events are exactly `int((i + 1) / n * 100)` for
`i = 0..n-1`, computed in IEEE double arithmetic with `int()` truncation
— neither the exact rounding nor the exact floor of the rational — and
the final event is exactly 100 (the division `n / n` and the product by
100 are both exact); the run ends with the terminal event. -/
theorem C7_amended (cmds : List Cmd) (reply : ℕ → Option String) (msg : String)
    (hne : cmds ≠ []) :
    progressVals (JobThread.run cmds ⟨reply, fun _ => false, fun _ => false, false, none, msg⟩)
      = (List.range cmds.length).map (fun i => progressAt i cmds.length)
    ∧ progressAt (cmds.length - 1) cmds.length = 100
    ∧ (JobThread.run cmds
        ⟨reply, fun _ => false, fun _ => false, false, none, msg⟩).getLast?
      = some .finished := by
  obtain ⟨h1, h2, h3⟩ := jobLoop_no_stop reply msg cmds.length cmds 0
  have hn : 0 < cmds.length := List.length_pos.mpr hne
  have hrun :
      JobThread.run cmds ⟨reply, fun _ => false, fun _ => false, false, none, msg⟩
        = (jobLoop ⟨reply, fun _ => false, fun _ => false, false, none, msg⟩
            cmds.length cmds 0).1
          ++ [.sent "PU:", .status "Job completed", .finished] := by
    simp [JobThread.run, h1]
  refine ⟨?_, ?_, ?_⟩
  · rw [hrun, progressVals_append, h3, ← List.range_eq_range']
    simp [progressVals]
  · exact progressAt_last cmds.length (by omega)
  · rw [hrun,
      show ([Ev.sent "PU:", Ev.status "Job completed", Ev.finished])
        = [Ev.sent "PU:", Ev.status "Job completed"] ++ [Ev.finished] from rfl,
      ← List.append_assoc]
    exact List.getLast?_concat _

/-- C7 witness: the spec's ten-command scenario produces progress events
`10, 20, ..., 100` in order — monotone, reaching 100 only at the end —
and ends in the terminal event. -/
theorem C7_amended_witness :
    progressVals (JobThread.run (List.replicate 10 .penDown)
        ⟨fun _ => some "OK", fun _ => false, fun _ => false, false, none, "m"⟩)
      = [10, 20, 30, 40, 50, 60, 70, 80, 90, 100]
    ∧ progressAt ((List.replicate 10 Cmd.penDown).length - 1)
        (List.replicate 10 Cmd.penDown).length = 100
    ∧ (JobThread.run (List.replicate 10 .penDown)
        ⟨fun _ => some "OK", fun _ => false, fun _ => false, false, none, "m"⟩).getLast?
      = some .finished :=
  C7_amended (List.replicate 10 .penDown) (fun _ => some "OK") "m" (by decide)

/-- C4 witness: instantiating the amended SP law at the statement `SP4`
(pen 4) yields `SetPower 127`. -/
theorem C4_amended_witness :
    parserStep PState.empty ('S' :: 'P' :: ['4'])
      = .ok { commands := [.setPower 127], bounds := none }
    ∧ HPGLParser.parse_file PState.empty "IN;PU;PA100,200;PD;PA150,250;SP4;".toList
      = (true,
         { commands := [.home, .penUp, .moveTo 100 200, .penDown, .moveTo 150 250,
                        .setPower 127],
           bounds := some { min_x := 100, min_y := 200, max_x := 150, max_y := 250 } }) :=
  C4_amended PState.empty ['4'] 4 (by decide)

theorem spPower_range (pen : Int) (h : 0 ≤ pen) : 0 ≤ spPower pen ∧ spPower pen ≤ 255 := by
  unfold spPower
  exact ⟨le_min (by norm_num) (Int.tdiv_nonneg (by positivity) (by norm_num)),
    min_le_left _ _⟩

/-- Any single parser statement preserves the invariant that every emitted
`SetPower` is in `[0, 255]`, provided a nonnegative pen argument. -/
theorem parserStep_setPower_range (st : PState) (s : List Char) (hok : spOK s = true)
    (hst : ∀ p : Int, Cmd.setPower p ∈ st.commands → 0 ≤ p ∧ p ≤ 255) :
    ∀ p : Int, Cmd.setPower p ∈ (exceptState (parserStep st s)).commands → 0 ≤ p ∧ p ≤ 255 := by
  have hsp : ∀ pen : Int, s.take 2 = ['S', 'P'] → pyInt? (s.drop 2) = some pen →
      0 ≤ spPower pen ∧ spPower pen ≤ 255 := by
    intro pen htake hpen
    apply spPower_range
    unfold spOK at hok
    rw [if_pos htake, hpen] at hok
    exact of_decide_eq_true hok
  simp only [parserStep]
  repeat' split
  all_goals intro p hp
  all_goals try simp only [exceptState] at hp
  all_goals try simp only [List.mem_append, List.mem_singleton, reduceCtorEq, or_false,
    Cmd.setPower.injEq] at hp
  all_goals
    first
      | exact hst p hp
      | (rcases hp with hp | hp
         · exact hst p hp
         · exact hp ▸ hsp _ (by assumption) (by assumption))

theorem runStmts_setPower_range (stmts : List (List Char)) :
    ∀ st : PState, (∀ s ∈ stmts, spOK s = true) →
      (∀ p : Int, Cmd.setPower p ∈ st.commands → 0 ≤ p ∧ p ≤ 255) →
      ∀ p : Int, Cmd.setPower p ∈ (runStmts parserStep st stmts).2.commands →
        0 ≤ p ∧ p ≤ 255 := by
  induction stmts with
  | nil => exact fun st _ hst => hst
  | cons s rest ih =>
    intro st h hst
    have hstep := parserStep_setPower_range st s (h s (by simp)) hst
    unfold runStmts
    cases hps : parserStep st s with
    | ok st1 =>
      exact ih st1 (fun u hu => h u (List.mem_cons_of_mem _ hu))
        (by simpa [exceptState, hps] using hstep)
    | error st1 =>
      simpa [exceptState, hps] using hstep

/-- C9 amended.  For every input text whose `SP` arguments are all
nonnegative, every `SetPower` the parser emits carries a power in
`[0, 255]`; a negative pen argument (accepted by the code) escapes the
range downward, so the nonnegativity hypothesis is necessary. -/
theorem C9_amended (content : List Char)
    (h : ∀ s ∈ statements content, spOK s = true) :
    ∀ p : Int, Cmd.setPower p ∈ (HPGLParser.parse_file PState.empty content).2.commands →
      0 ≤ p ∧ p ≤ 255 :=
  runStmts_setPower_range (statements content) PState.empty h (by simp [PState.empty])

/-- C9 witness: in the parse of a text with pens 4, 0 and 8, the emitted
power 127 is in range. -/
theorem C9_amended_witness :
    Cmd.setPower 127
        ∈ (HPGLParser.parse_file PState.empty "SP4;SP0;SP8;PA1,2;".toList).2.commands
    ∧ (0 : Int) ≤ 127 ∧ (127 : Int) ≤ 255 :=
  ⟨by decide, C9_amended "SP4;SP0;SP8;PA1,2;".toList (by decide) 127 (by decide)⟩

theorem pairsOf_flatPairs (ps : List (Int × Int)) : pairsOf (flatPairs ps) = ps := by
  induction ps with
  | nil => rfl
  | cons p rest ih => simp [flatPairs, pairsOf, ih]

theorem emitPairs_commands (ps : List (Int × Int)) :
    ∀ st : PState,
      (emitPairs st ps).commands
          = st.commands ++ ps.map (fun p => Cmd.moveTo p.1 p.2)
      ∧ (emitPairs st ps).bounds
          = ps.foldl (fun b p => update_bounds b p.1 p.2) st.bounds := by
  induction ps with
  | nil => intro st; simp [emitPairs]
  | cons p rest ih =>
    intro st
    obtain ⟨ih1, ih2⟩ :=
      ih ⟨st.commands ++ [Cmd.moveTo p.1 p.2], update_bounds st.bounds p.1 p.2⟩
    have key : emitPairs st (p :: rest)
        = emitPairs ⟨st.commands ++ [Cmd.moveTo p.1 p.2], update_bounds st.bounds p.1 p.2⟩
            rest := rfl
    constructor
    · rw [key, ih1]
      simp
    · rw [key, ih2]
      rfl

theorem emitPairs_emitPairs (st : PState) (a b : List (Int × Int)) :
    emitPairs (emitPairs st a) b = emitPairs st (a ++ b) :=
  (List.foldl_append ..).symm

/-- A `PA` statement whose cleaned parameter list parses to `nums` makes
the processor emit exactly the pairs of `nums`. -/
theorem processorStep_pa (st : PState) (s : List Char) (nums : List Int)
    (htake : s.take 2 = ['P', 'A'])
    (hnums : intsOf ((splitOnChar ',' (s.drop 2)).filter (fun n => !n.isEmpty))
        = some nums) :
    processorStep st s = .ok (emitPairs st (pairsOf nums)) := by
  have hne : s ≠ [] := by
    intro h
    rw [h] at htake
    simp at htake
  have hemp : s.isEmpty = false := by
    simpa [List.isEmpty_iff] using hne
  have h1 : ¬((['P', 'A'] : List Char) = ['I', 'N']) := by decide
  have h2 : ¬((['P', 'A'] : List Char) = ['P', 'U']
      ∨ (['P', 'A'] : List Char) = ['P', 'D']) := by decide
  simp only [processorStep, hemp, Bool.false_eq_true, if_false, htake, h1, h2, if_true,
    hnums]

/-- Running the processor over statements that are all well-formed `PA`
polylines emits the concatenation of their pairs, in order. -/
theorem runStmts_pa (stmts : List (List Char)) (pss : List (List (Int × Int)))
    (h : List.Forall₂ (fun s ps =>
        s.take 2 = ['P', 'A']
        ∧ intsOf ((splitOnChar ',' (s.drop 2)).filter (fun n => !n.isEmpty))
            = some (flatPairs ps)) stmts pss) :
    ∀ st : PState, runStmts processorStep st stmts = (true, emitPairs st pss.flatten) := by
  induction h with
  | nil => intro st; simp [runStmts, emitPairs]
  | @cons s ps stmts2 pss2 hsp hrest ih =>
    intro st
    obtain ⟨htake, hnums⟩ := hsp
    unfold runStmts
    rw [processorStep_pa _ _ _ htake hnums, pairsOf_flatPairs]
    show runStmts processorStep (emitPairs st ps) stmts2 = _
    rw [ih, List.flatten_cons, ← emitPairs_emitPairs]

theorem emitPairs_eq (st : PState) (ps : List (Int × Int)) :
    emitPairs st ps
      = { commands := st.commands ++ ps.map (fun p => Cmd.moveTo p.1 p.2),
          bounds := ps.foldl (fun b p => update_bounds b p.1 p.2) st.bounds } := by
  obtain ⟨h1, h2⟩ := emitPairs_commands ps st
  have heta : emitPairs st ps
      = (⟨(emitPairs st ps).commands, (emitPairs st ps).bounds⟩ : PState) := rfl
  rw [heta, h1, h2]

/-- A well-formed parameter list after `PU`/`PD`/`PA` is nonempty as text:
`int` rejects the empty chunk that splitting an empty payload yields. -/
theorem drop_ne_nil_of_intsOf {s : List Char} {nums : List Int}
    (hnums : intsOf (splitOnChar ',' (s.drop 2)) = some nums) : s.drop 2 ≠ [] := by
  intro h
  rw [h] at hnums
  simp [splitOnChar, intsOf, pyInt?] at hnums

/-- A `PU` statement with parameters makes the processor emit `PenUp` and
then the pairs of `nums`. -/
theorem processorStep_pu (st : PState) (s : List Char) (nums : List Int)
    (htake : s.take 2 = ['P', 'U'])
    (hnums : intsOf (splitOnChar ',' (s.drop 2)) = some nums) :
    processorStep st s
      = .ok (emitPairs { st with commands := st.commands ++ [Cmd.penUp] }
          (pairsOf nums)) := by
  have hne : s ≠ [] := by
    intro h
    rw [h] at htake
    simp at htake
  have hemp : s.isEmpty = false := by
    simpa [List.isEmpty_iff] using hne
  have hlen : s.length > 2 := by
    rcases Nat.lt_or_ge 2 s.length with h | h
    · exact h
    · exact absurd (List.drop_eq_nil_iff.mpr h) (drop_ne_nil_of_intsOf hnums)
  have h1 : ¬((['P', 'U'] : List Char) = ['I', 'N']) := by decide
  have h2 : (['P', 'U'] : List Char) = ['P', 'U']
      ∨ (['P', 'U'] : List Char) = ['P', 'D'] := Or.inl rfl
  simp only [processorStep, hemp, Bool.false_eq_true, if_false, htake, h1, h2, if_true,
    hlen, hnums, true_or, if_pos]

/-- A `PD` statement with parameters makes the processor emit `PenDown`
and then the pairs of `nums`. -/
theorem processorStep_pd (st : PState) (s : List Char) (nums : List Int)
    (htake : s.take 2 = ['P', 'D'])
    (hnums : intsOf (splitOnChar ',' (s.drop 2)) = some nums) :
    processorStep st s
      = .ok (emitPairs { st with commands := st.commands ++ [Cmd.penDown] }
          (pairsOf nums)) := by
  have hne : s ≠ [] := by
    intro h
    rw [h] at htake
    simp at htake
  have hemp : s.isEmpty = false := by
    simpa [List.isEmpty_iff] using hne
  have hlen : s.length > 2 := by
    rcases Nat.lt_or_ge 2 s.length with h | h
    · exact h
    · exact absurd (List.drop_eq_nil_iff.mpr h) (drop_ne_nil_of_intsOf hnums)
  have h1 : ¬((['P', 'D'] : List Char) = ['I', 'N']) := by decide
  have h2 : (['P', 'D'] : List Char) = ['P', 'U']
      ∨ (['P', 'D'] : List Char) = ['P', 'D'] := Or.inr rfl
  have h3 : ¬((['P', 'D'] : List Char) = ['P', 'U']) := by decide
  simp only [processorStep, hemp, Bool.false_eq_true, if_false, htake, h1, h2, h3, if_true,
    hlen, hnums, false_or, or_true, if_pos]

/-- C5 amended.  In the `HpglFileProcessor.py` parser, every `PU`, `PD` or
`PA` statement whose parameter list is a flat list of coordinate pairs
emits one `MoveTo` per consecutive pair, in input order, each folded into
the bounds — preceded by `PenUp`/`PenDown` for `PU`/`PD` — from any
surrounding parse state; consequently a PA-only input yields all pairs in
order, with final bounds the running min/max — the true minimum and
maximum — over all coordinates.  (The `hpgl_parser.py` copy instead emits
only the first pair of each statement.) -/
theorem C5_amended :
    (∀ (st : PState) (s : List Char) (ps : List (Int × Int)),
        s.take 2 = ['P', 'U'] →
        intsOf (splitOnChar ',' (s.drop 2)) = some (flatPairs ps) →
        processorStep st s
          = .ok { commands := (st.commands ++ [Cmd.penUp])
                    ++ ps.map (fun p => Cmd.moveTo p.1 p.2),
                  bounds := ps.foldl (fun b p => update_bounds b p.1 p.2) st.bounds })
    ∧ (∀ (st : PState) (s : List Char) (ps : List (Int × Int)),
        s.take 2 = ['P', 'D'] →
        intsOf (splitOnChar ',' (s.drop 2)) = some (flatPairs ps) →
        processorStep st s
          = .ok { commands := (st.commands ++ [Cmd.penDown])
                    ++ ps.map (fun p => Cmd.moveTo p.1 p.2),
                  bounds := ps.foldl (fun b p => update_bounds b p.1 p.2) st.bounds })
    ∧ (∀ (st : PState) (s : List Char) (ps : List (Int × Int)),
        s.take 2 = ['P', 'A'] →
        intsOf ((splitOnChar ',' (s.drop 2)).filter (fun n => !n.isEmpty))
            = some (flatPairs ps) →
        processorStep st s
          = .ok { commands := st.commands ++ ps.map (fun p => Cmd.moveTo p.1 p.2),
                  bounds := ps.foldl (fun b p => update_bounds b p.1 p.2) st.bounds })
    ∧ (∀ (stmts : List (List Char)) (pss : List (List (Int × Int))),
        List.Forall₂ (fun s ps =>
            s.take 2 = ['P', 'A']
            ∧ intsOf ((splitOnChar ',' (s.drop 2)).filter (fun n => !n.isEmpty))
                = some (flatPairs ps)) stmts pss →
        runStmts processorStep PState.empty stmts
          = (true, { commands := pss.flatten.map (fun p => Cmd.moveTo p.1 p.2),
                     bounds := pss.flatten.foldl
                       (fun b p => update_bounds b p.1 p.2) none }))
    ∧ ∀ (q : Int × Int) (rest : List (Int × Int)),
        (q :: rest).foldl (fun b p => update_bounds b p.1 p.2) none
          = some { min_x := rest.foldl (fun m p => min m (p.1 : ℚ)) (q.1 : ℚ),
                   min_y := rest.foldl (fun m p => min m (p.2 : ℚ)) (q.2 : ℚ),
                   max_x := rest.foldl (fun m p => max m (p.1 : ℚ)) (q.1 : ℚ),
                   max_y := rest.foldl (fun m p => max m (p.2 : ℚ)) (q.2 : ℚ) } := by
  refine ⟨?_, ?_, ?_, ?_, ?_⟩
  · intro st s ps htake hnums
    rw [processorStep_pu st s _ htake hnums, pairsOf_flatPairs, emitPairs_eq]
  · intro st s ps htake hnums
    rw [processorStep_pd st s _ htake hnums, pairsOf_flatPairs, emitPairs_eq]
  · intro st s ps htake hnums
    rw [processorStep_pa st s _ htake hnums, pairsOf_flatPairs, emitPairs_eq]
  · intro stmts pss h
    rw [runStmts_pa stmts pss h PState.empty, emitPairs_eq]
    rfl
  · intro q rest
    have aux : ∀ (rest : List (Int × Int)) (b : Box),
        rest.foldl (fun b p => update_bounds b p.1 p.2) (some b)
          = some { min_x := rest.foldl (fun m p => min m (p.1 : ℚ)) b.min_x,
                   min_y := rest.foldl (fun m p => min m (p.2 : ℚ)) b.min_y,
                   max_x := rest.foldl (fun m p => max m (p.1 : ℚ)) b.max_x,
                   max_y := rest.foldl (fun m p => max m (p.2 : ℚ)) b.max_y } := by
      intro rest
      induction rest with
      | nil => intro b; rfl
      | cons p tl ih =>
        intro b
        simp only [List.foldl_cons]
        exact ih _
    simp only [List.foldl_cons]
    exact aux rest _

/-- C5 witness: a two-pair `PU` polyline, a one-pair `PD` polyline, a
two-pair `PA` polyline, and a PA-only run of two statements, all emitting
one `MoveTo` per pair in order with the expected bounds. -/
theorem C5_amended_witness :
    processorStep PState.empty "PU1,2,3,4".toList
      = .ok { commands := [.penUp, .moveTo 1 2, .moveTo 3 4],
              bounds := some { min_x := 1, min_y := 2, max_x := 3, max_y := 4 } }
    ∧ processorStep PState.empty "PD5,6".toList
      = .ok { commands := [.penDown, .moveTo 5 6],
              bounds := some { min_x := 5, min_y := 6, max_x := 5, max_y := 6 } }
    ∧ processorStep PState.empty "PA0,0,5,5".toList
      = .ok { commands := [.moveTo 0 0, .moveTo 5 5],
              bounds := some { min_x := 0, min_y := 0, max_x := 5, max_y := 5 } }
    ∧ runStmts processorStep PState.empty ["PA0,0,5,5".toList, "PA9,9".toList]
      = (true, { commands := [.moveTo 0 0, .moveTo 5 5, .moveTo 9 9],
                 bounds := some { min_x := 0, min_y := 0, max_x := 9, max_y := 9 } })
    ∧ (0 :: [(5, 5), (9, 9)].map Prod.fst : List Int).foldl min 0 = 0 := by
  obtain ⟨w1, w2, w3, w4, w5⟩ := C5_amended
  refine ⟨?_, ?_, ?_, ?_, by decide⟩
  · exact w1 PState.empty "PU1,2,3,4".toList [(1, 2), (3, 4)] (by decide) (by decide)
  · exact w2 PState.empty "PD5,6".toList [(5, 6)] (by decide) (by decide)
  · exact w3 PState.empty "PA0,0,5,5".toList [(0, 0), (5, 5)] (by decide) (by decide)
  · exact w4 ["PA0,0,5,5".toList, "PA9,9".toList] [[(0, 0), (5, 5)], [(9, 9)]]
      (List.Forall₂.cons ⟨by decide, by decide⟩
        (List.Forall₂.cons ⟨by decide, by decide⟩ List.Forall₂.nil))

/-- On a simple statement the two implementations take the state to the
same place. -/
theorem step_eq_of_simple (s : List Char) (st : PState) (hs : simpleStmt s = true) :
    parserStep st s = processorStep st s := by
  by_cases hemp : s.isEmpty
  · simp only [parserStep, processorStep, hemp, if_true]
  have hCI : ¬ s.take 2 = ['C', 'I'] := by
    intro h
    simp [simpleStmt, h] at hs
  by_cases hIN : s.take 2 = ['I', 'N']
  · simp [parserStep, processorStep, hemp, hIN]
  by_cases hPUD : s.take 2 = ['P', 'U'] ∨ s.take 2 = ['P', 'D']
  · by_cases hdrop : s.drop 2 = []
    · have hlen : ¬ s.length > 2 := by
        have := List.drop_eq_nil_iff.mp hdrop
        omega
      simp [parserStep, processorStep, hemp, hIN, hPUD, hlen]
    · have hlen : s.length > 2 := by
        by_contra hc
        exact hdrop (List.drop_eq_nil_iff.mpr (by omega))
      rcases hsplit : splitOnChar ',' (s.drop 2) with _ | ⟨c0, tl⟩
      · simp [simpleStmt, hCI, hPUD, hdrop, hsplit] at hs
      rcases tl with _ | ⟨c1, tl2⟩
      · have hv : (pyInt? c0).isSome := by
          simpa [simpleStmt, hCI, hPUD, hdrop, hsplit] using hs
        obtain ⟨v, hv⟩ := Option.isSome_iff_exists.mp hv
        simp [parserStep, processorStep, hemp, hIN, hPUD, hlen, hsplit, hv,
          intsOf, emitPairs, pairsOf]
      rcases tl2 with _ | ⟨c2, tl3⟩
      · cases hv0 : pyInt? c0 <;> cases hv1 : pyInt? c1 <;>
          simp [parserStep, processorStep, hemp, hIN, hPUD, hlen, hsplit, hv0, hv1,
            intsOf, emitPairs, pairsOf]
      · simp [simpleStmt, hCI, hPUD, hdrop, hsplit] at hs
  by_cases hPA : s.take 2 = ['P', 'A']
  · rcases hsplit : splitOnChar ',' (s.drop 2) with _ | ⟨c0, tl⟩
    · simp [simpleStmt, hCI, hPUD, hPA, hsplit] at hs
    rcases tl with _ | ⟨c1, tl2⟩
    · have hv : c0.isEmpty || (pyInt? c0).isSome := by
        simpa [simpleStmt, hCI, hPUD, hPA, hsplit] using hs
      rcases Bool.or_eq_true_iff.mp hv with he | hv
      · have : c0 = [] := List.isEmpty_iff.mp he
        subst this
        simp [parserStep, processorStep, hemp, hIN, hPUD, hPA, hsplit, intsOf, emitPairs,
          pairsOf]
      · obtain ⟨v, hv⟩ := Option.isSome_iff_exists.mp hv
        by_cases he : c0.isEmpty
        · have : c0 = [] := List.isEmpty_iff.mp he
          subst this
          simp [pyInt?] at hv
        · simp [parserStep, processorStep, hemp, hIN, hPUD, hPA, hsplit, he, hv,
            intsOf, emitPairs, pairsOf]
    rcases tl2 with _ | ⟨c2, tl3⟩
    · have hv : !c0.isEmpty && !c1.isEmpty := by
        simpa [simpleStmt, hCI, hPUD, hPA, hsplit] using hs
      obtain ⟨he0, he1⟩ := Bool.and_eq_true_iff.mp hv
      cases hv0 : pyInt? c0 <;> cases hv1 : pyInt? c1 <;>
        simp [parserStep, processorStep, hemp, hIN, hPUD, hPA, hsplit, he0, he1, hv0, hv1,
          intsOf, emitPairs, pairsOf]
    · simp [simpleStmt, hCI, hPUD, hPA, hsplit] at hs
  by_cases hSP : s.take 2 = ['S', 'P']
  · simp [parserStep, processorStep, hemp, hIN, hPUD, hPA, hSP]
  · simp [parserStep, processorStep, hemp, hIN, hPUD, hPA, hSP, hCI]

/-- C10 amended.  The two parser copies are not equivalent in general (see
the counterexample), but they do agree — same success flag, same command
sequence, same bounding box — on every text whose statements avoid the
divergent features: no `CI`, and `PU`/`PD`/`PA` parameter lists of at most
one coordinate pair, with no empty or single unparsable entry. -/
theorem C10_amended (content : List Char)
    (h : ∀ s ∈ statements content, simpleStmt s = true) :
    HPGLParser.parse_file PState.empty content
      = HPGLProcessor.parse_file PState.empty content := by
  have main : ∀ (stmts : List (List Char)), (∀ s ∈ stmts, simpleStmt s = true) →
      ∀ st : PState, runStmts parserStep st stmts = runStmts processorStep st stmts := by
    intro stmts
    induction stmts with
    | nil => intro _ st; rfl
    | cons s rest ih =>
      intro hall st
      have hstep := step_eq_of_simple s st (hall s (by simp))
      show (match parserStep st s with
            | .ok st1 => runStmts parserStep st1 rest
            | .error st1 => (false, st1))
          = (match processorStep st s with
            | .ok st1 => runStmts processorStep st1 rest
            | .error st1 => (false, st1))
      rw [hstep]
      cases processorStep st s with
      | ok st1 => exact ih (fun u hu => hall u (List.mem_cons_of_mem _ hu)) st1
      | error st1 => rfl
  exact main (statements content) h PState.empty

/-- C10 witness: on the spec's example text (no `CI`, single pairs only)
the two implementations agree exactly. -/
theorem C10_amended_witness :
    HPGLParser.parse_file PState.empty "IN;PU;PA100,200;PD;PA150,250;SP4;".toList
      = HPGLProcessor.parse_file PState.empty "IN;PU;PA100,200;PD;PA150,250;SP4;".toList :=
  C10_amended "IN;PU;PA100,200;PD;PA150,250;SP4;".toList (by decide)

/-- C8 amended.  `scale_commands(factor)` keeps the command count and
positions, maps `MoveTo (x, y)` at position `i` to the `int()`-truncated
IEEE products `(int(x * factor), int(y * factor))` — truncation toward
zero of a float multiply, not rounding — passes every non-`MoveTo`
command through unchanged in place, multiplies all four bound fields by
the factor (one IEEE rounding each), and for the exactly representable
factor `2` every coordinate of magnitude below `2 ^ 52` is exactly
doubled. -/
theorem C8_amended (st : PState) (factor : Dy) :
    (scale_commands st factor).commands.length = st.commands.length
    ∧ (∀ (i : ℕ) (x y : Int), st.commands[i]? = some (.moveTo x y) →
        (scale_commands st factor).commands[i]?
          = some (.moveTo (dyTrunc (flMulZ factor x)) (dyTrunc (flMulZ factor y))))
    ∧ (∀ (i : ℕ) (c : Cmd), st.commands[i]? = some c → (∀ x y : Int, c ≠ .moveTo x y) →
        (scale_commands st factor).commands[i]? = some c)
    ∧ (∀ b : Box, st.bounds = some b →
        (scale_commands st factor).bounds
          = some { min_x := dyVal (flMulD (flRat b.min_x) factor),
                   min_y := dyVal (flMulD (flRat b.min_y) factor),
                   max_x := dyVal (flMulD (flRat b.max_x) factor),
                   max_y := dyVal (flMulD (flRat b.max_y) factor) })
    ∧ (∀ (i : ℕ) (x y : Int), st.commands[i]? = some (.moveTo x y) →
        x.natAbs < 2 ^ 52 → y.natAbs < 2 ^ 52 →
        (scale_commands st ⟨2, 0⟩).commands[i]? = some (.moveTo (2 * x) (2 * y))) := by
  have hdouble : ∀ x : Int, x.natAbs < 2 ^ 52 → dyTrunc (flMulZ ⟨2, 0⟩ x) = 2 * x := by
    intro x hx
    have hrep : (2 * x).natAbs < 2 ^ 53 := by
      rw [Int.natAbs_mul, show ((2 : Int)).natAbs = 2 from rfl]
      omega
    simp only [flMulZ, round53, hrep, if_pos, dyTrunc]
    norm_num
  refine ⟨by simp [scale_commands], ?_, ?_, ?_, ?_⟩
  · intro i x y h
    simp [scale_commands, List.getElem?_map, h]
  · intro i c h hne
    simp only [scale_commands, List.getElem?_map, h, Option.map_some]
    cases c with
    | moveTo x y => exact absurd rfl (hne x y)
    | _ => rfl
  · intro b hb
    simp [scale_commands, hb]
  · intro i x y h hx hy
    simp [scale_commands, List.getElem?_map, h, hdouble x hx, hdouble y hy]

/-- C8 witness: scaling the two-command state with bounds
`(0, 0, 100, 100)` by the float `2.0` doubles the `MoveTo` exactly,
passes `PenDown` through, and yields bounds `(0, 0, 200, 200)`. -/
theorem C8_amended_witness :
    (scale_commands
        { commands := [.penDown, .moveTo 50 100],
          bounds := some { min_x := 0, min_y := 0, max_x := 100, max_y := 100 } }
        ⟨2, 0⟩).commands.length = 2
    ∧ (scale_commands
        { commands := [.penDown, .moveTo 50 100],
          bounds := some { min_x := 0, min_y := 0, max_x := 100, max_y := 100 } }
        ⟨2, 0⟩).commands[1]? = some (.moveTo 100 200)
    ∧ (scale_commands
        { commands := [.penDown, .moveTo 50 100],
          bounds := some { min_x := 0, min_y := 0, max_x := 100, max_y := 100 } }
        ⟨2, 0⟩).commands[0]? = some .penDown
    ∧ (scale_commands
        { commands := [.penDown, .moveTo 50 100],
          bounds := some { min_x := 0, min_y := 0, max_x := 100, max_y := 100 } }
        ⟨2, 0⟩).bounds
      = some { min_x := 0, min_y := 0, max_x := 200, max_y := 200 } := by
  obtain ⟨h1, h2, h3, h4, h5⟩ :=
    C8_amended
      { commands := [.penDown, .moveTo 50 100],
        bounds := some { min_x := 0, min_y := 0, max_x := 100, max_y := 100 } } ⟨2, 0⟩
  refine ⟨h1, ?_, h3 0 .penDown rfl (fun x y h => Cmd.noConfusion h), ?_⟩
  · rw [h5 1 50 100 rfl (by decide) (by decide)]
    decide
  · rw [h4 { min_x := 0, min_y := 0, max_x := 100, max_y := 100 } rfl]
    rw [show flMulD (flRat (0 : ℚ)) ⟨2, 0⟩ = ⟨0, 0⟩ from by decide,
      show flMulD (flRat (100 : ℚ)) ⟨2, 0⟩ = ⟨7036874417766400, -45⟩ from by decide]
    norm_num [dyVal, show Int.toNat 45 = 45 from rfl]

theorem truncR_intCast (n : Int) : truncR (n : ℝ) = n := by
  unfold truncR
  split <;> simp

/-- Numeric range of the first circle point for radius 10: the angle is
`π/18 = 10°`, whose cosine and sine land `10·cos` in `(9.5, 10)` and
`10·sin` in `(1.5, 1.75)`. -/
theorem circle_first_point_bounds :
    (9.5 : ℝ) < 10 * Real.cos (Real.pi / 18) ∧ 10 * Real.cos (Real.pi / 18) < 10
    ∧ (1.5 : ℝ) < 10 * Real.sin (Real.pi / 18)
    ∧ 10 * Real.sin (Real.pi / 18) < 1.75 := by
  have hπu : Real.pi < 3.15 := Real.pi_lt_d2
  have hπl : 3.14 < Real.pi := Real.pi_gt_d2
  have hxpos : (0 : ℝ) < Real.pi / 18 := by positivity
  have hxu : Real.pi / 18 < 0.175 := by linarith
  have hxl : (0.174 : ℝ) < Real.pi / 18 := by linarith
  have hcos_u : Real.cos (Real.pi / 18) < 1 := by
    have h := Real.cos_lt_cos_of_nonneg_of_le_pi (le_refl 0) (by linarith) hxpos
    rwa [Real.cos_zero] at h
  have hcos_l : 1 - (Real.pi / 18) ^ 2 / 2 < Real.cos (Real.pi / 18) :=
    Real.one_sub_sq_div_two_lt_cos (ne_of_gt hxpos)
  have hsq : (Real.pi / 18) ^ 2 < 0.030625 := by nlinarith
  have hsin_u : Real.sin (Real.pi / 18) < 0.175 := lt_trans (Real.sin_lt hxpos) hxu
  have hsin_l : (0.172 : ℝ) < Real.sin (Real.pi / 18) := by
    have h1 := Real.sin_gt_sub_cube hxpos (by linarith : Real.pi / 18 ≤ 1)
    have h2 : (Real.pi / 18) ^ 3 / 4 < 0.0014 := by nlinarith
    linarith
  exact ⟨by nlinarith, by nlinarith, by nlinarith, by nlinarith⟩

/-- C6 counterexample.  For the circle `CI 10` centered at the preceding
`MoveTo (0, 0)`, the first generated circle point (the fourth emitted
command) is `MoveTo 9 1` — `int()` truncation of `10·cos 10° ≈ 9.848` and
`10·sin 10° ≈ 1.736` — while the claim's `round` formula yields
`MoveTo 10 2`. -/
theorem C6_counterexample :
    (convert_circle_to_lines
        { commands := [.moveTo 0 0],
          bounds := some { min_x := 0, min_y := 0, max_x := 0, max_y := 0 } }
        10 36).commands[3]?
      = some (.moveTo 9 1)
    ∧ (round ((10 : ℝ) * Real.cos (2 * Real.pi * 1 / 36)),
       round ((10 : ℝ) * Real.sin (2 * Real.pi * 1 / 36))) = ((10 : ℤ), (2 : ℤ)) := by
  obtain ⟨hc1, hc2, hs1, hs2⟩ := circle_first_point_bounds
  have hA : 2 * Real.pi * 1 / 36 = Real.pi / 18 := by ring
  have hfloorc : ⌊(10 : ℝ) * Real.cos (Real.pi / 18)⌋ = 9 :=
    Int.floor_eq_iff.mpr ⟨by push_cast; linarith, by push_cast; linarith⟩
  have hfloors : ⌊(10 : ℝ) * Real.sin (Real.pi / 18)⌋ = 1 :=
    Int.floor_eq_iff.mpr ⟨by push_cast; linarith, by push_cast; linarith⟩
  have hroundc : round ((10 : ℝ) * Real.cos (Real.pi / 18)) = 10 := by
    rw [round_eq]
    exact Int.floor_eq_iff.mpr ⟨by push_cast; linarith, by push_cast; linarith⟩
  have hrounds : round ((10 : ℝ) * Real.sin (Real.pi / 18)) = 2 := by
    rw [round_eq]
    exact Int.floor_eq_iff.mpr ⟨by push_cast; linarith, by push_cast; linarith⟩
  constructor
  · have hget :
        (convert_circle_to_lines
            { commands := [.moveTo 0 0],
              bounds := some { min_x := 0, min_y := 0, max_x := 0, max_y := 0 } }
            10 36).commands[3]?
          = some (Cmd.moveTo
              (0 + truncR ((10 : ℝ) * Real.cos (2 * Real.pi * ((0 + 1 : ℕ) : ℝ) / 36)))
              (0 + truncR ((10 : ℝ) * Real.sin (2 * Real.pi * ((0 + 1 : ℕ) : ℝ) / 36)))) :=
      rfl
    rw [hget]
    have hcast : ((0 + 1 : ℕ) : ℝ) = 1 := by norm_num
    rw [hcast, hA]
    unfold truncR
    rw [if_pos (by linarith : (0 : ℝ) ≤ 10 * Real.cos (Real.pi / 18)),
      if_pos (by linarith : (0 : ℝ) ≤ 10 * Real.sin (Real.pi / 18)),
      hfloorc, hfloors]
    norm_num
  · rw [hA, hroundc, hrounds]

/-- C6 amended.  When the last emitted command is `MoveTo cx cy`, the
`CI radius` expansion removes it and appends, in order, `PenUp`, the
angle-0 point `MoveTo (cx + radius) cy`, `PenDown`, the 36 circle points
for `i = 1..36` — each coordinate `int()`-truncated toward zero, not
rounded — and a trailing `PenUp`, with every emitted point folded into the
bounds; the 36th point closes the loop exactly at the angle-0 point; with
no preceding `MoveTo` the expansion is a no-op. -/
theorem C6_amended (pre : List Cmd) (cx cy radius : Int) (b : Option Box)
    (st2 : PState) (r2 : Int)
    (hno : ∀ x y : Int, st2.commands.getLast? ≠ some (.moveTo x y)) :
    convert_circle_to_lines { commands := pre ++ [.moveTo cx cy], bounds := b } radius 36
      = { commands := pre ++ [.penUp, .moveTo (cx + radius) cy, .penDown]
            ++ ((List.range 36).map (fun k => circlePoint cx cy radius 36 (k + 1))).map
                (fun p => Cmd.moveTo p.1 p.2)
            ++ [.penUp],
          bounds := ((List.range 36).map (fun k => circlePoint cx cy radius 36 (k + 1))).foldl
            (fun bb p => update_bounds bb p.1 p.2) (update_bounds b (cx + radius) cy) }
    ∧ (∀ i : ℕ, circlePoint cx cy radius 36 i
        = (cx + truncR ((radius : ℝ) * Real.cos (2 * Real.pi * i / 36)),
           cy + truncR ((radius : ℝ) * Real.sin (2 * Real.pi * i / 36))))
    ∧ circlePoint cx cy radius 36 36 = (cx + radius, cy)
    ∧ convert_circle_to_lines st2 r2 36 = st2 := by
  refine ⟨?_, fun i => rfl, ?_, ?_⟩
  · simp only [convert_circle_to_lines, List.getLast?_concat, List.dropLast_concat]
  · have hangle : 2 * Real.pi * ((36 : ℕ) : ℝ) / ((36 : ℕ) : ℝ) = 2 * Real.pi := by
      push_cast
      ring
    simp only [circlePoint]
    rw [hangle, Real.cos_two_pi, Real.sin_two_pi, mul_one, mul_zero]
    have h0 : truncR 0 = 0 := by
      unfold truncR
      rw [if_pos (le_refl 0)]
      exact Int.floor_zero
    rw [truncR_intCast, h0, add_zero]
  · rcases hlast : st2.commands.getLast? with _ | c
    · simp [convert_circle_to_lines, hlast]
    · cases c with
      | moveTo x y => exact absurd hlast (hno x y)
      | home => simp [convert_circle_to_lines, hlast]
      | penUp => simp [convert_circle_to_lines, hlast]
      | penDown => simp [convert_circle_to_lines, hlast]
      | setPower p => simp [convert_circle_to_lines, hlast]

/-- C6 witness: the amended expansion law instantiated at center `(0, 0)`,
radius 10, a preceding `Home`, and a no-op case whose last command is
`PenUp`. -/
theorem C6_amended_witness :
    convert_circle_to_lines { commands := [Cmd.home] ++ [.moveTo 0 0], bounds := none } 10 36
      = { commands := [Cmd.home] ++ [.penUp, .moveTo (0 + 10) 0, .penDown]
            ++ ((List.range 36).map (fun k => circlePoint 0 0 10 36 (k + 1))).map
                (fun p => Cmd.moveTo p.1 p.2)
            ++ [.penUp],
          bounds := ((List.range 36).map (fun k => circlePoint 0 0 10 36 (k + 1))).foldl
            (fun bb p => update_bounds bb p.1 p.2) (update_bounds none (0 + 10) 0) }
    ∧ (∀ i : ℕ, circlePoint 0 0 10 36 i
        = (0 + truncR ((10 : ℝ) * Real.cos (2 * Real.pi * i / 36)),
           0 + truncR ((10 : ℝ) * Real.sin (2 * Real.pi * i / 36))))
    ∧ circlePoint 0 0 10 36 36 = (0 + 10, 0)
    ∧ convert_circle_to_lines { commands := [Cmd.penUp], bounds := none } 7 36
        = { commands := [Cmd.penUp], bounds := none } :=
  C6_amended [Cmd.home] 0 0 10 none { commands := [Cmd.penUp], bounds := none } 7
    (fun x y h => by simp at h)
